import Mathlib

/-!
Shallow embedding of blinkiva_gauss.py (BlinkIVA: blind source separation by a
joint NMF + auxiliary-function IVA iteration).

Modelling conventions:
* numpy ndarrays are records carrying explicit dimensions together with a total
  entry function (entries outside the dimension bounds are irrelevant junk,
  mirroring the fact that numpy never reads them here);
* float arithmetic is modelled over ℝ (ℂ for complex arrays);
* in-place mutation is modelled by explicit state passing; the caller's input
  buffers are threaded through the call and handed back, so that frame
  conditions (non-mutation of inputs) are statable;
* numpy's process-wide random generator and the external projection_back
  routine are external collaborators and enter as injected dependencies;
* np.linalg.solve is modelled by application of Mathlib's matrix inverse; the
  exception numpy raises on an exactly singular system is not modelled.
-/

noncomputable section

open scoped Classical

open scoped Matrix

namespace BlinkIVA

/-- Model of a 3-d complex numpy ndarray: explicit dimensions plus a total
entry function. -/
structure CArr3 where
  d1 : ℕ
  d2 : ℕ
  d3 : ℕ
  entry : ℕ → ℕ → ℕ → ℂ

/-- Model of a 2-d real numpy ndarray. -/
structure RArr2 where
  d1 : ℕ
  d2 : ℕ
  entry : ℕ → ℕ → ℝ

/-- Machine epsilon of IEEE double precision, np.finfo(float).eps = 2 ** (-52)
(line 65 of the source). -/
def machine_epsilon : ℝ := 1 / 2 ^ 52

/-- Blinky signal normalised by frequency, U_mean = U / n_freq / 2 (line 68). -/
def U_mean_fun (n_freq : ℕ) (U : RArr2) : ℕ → ℕ → ℝ :=
  fun n b => U.entry n b / (n_freq : ℝ) / 2

/-- Embedding of the inner routine demix(Y, X, W, P, R_all) (lines 107-116):
per frequency, Y[:,f,:] = X[:,f,:] · conj(W[f]); then P = ‖Y‖² over the
frequency axis divided by n_freq (all channel columns); finally R_all's columns
from n_src onward are overwritten with P's.  Returns the updated (Y, P, R_all). -/
def demix (n_freq n_src : ℕ) (X Y W : CArr3) (P R_all : RArr2) :
    CArr3 × RArr2 × RArr2 :=
  let Ynew : CArr3 :=
    { Y with entry := fun n f c =>
        if f < n_freq then
          ∑ k ∈ Finset.range X.d3, X.entry n f k * (starRingEnd ℂ) (W.entry f k c)
        else Y.entry n f c }
  let Pnew : RArr2 :=
    { P with entry := fun n c =>
        Real.sqrt (∑ f ∈ Finset.range Ynew.d2, Complex.abs (Ynew.entry n f c) ^ 2) ^ 2
          / (n_freq : ℝ) }
  let Rnew : RArr2 :=
    { R_all with entry := fun n c =>
        if n_src ≤ c then Pnew.entry n c else R_all.entry n c }
  (Ynew, Pnew, Rnew)

/-- np.mean(A, axis=0): column mean over the frame axis. -/
def meanCol (A : RArr2) (c : ℕ) : ℝ :=
  (∑ n ∈ Finset.range A.d1, A.entry n c) / (A.d1 : ℝ)

/-- Embedding of the rescaling step (lines 156-161, repeated at 190-195):
lmb = 1 / mean(R_all, axis=0); R_all and P are multiplied by lmb per column,
W by sqrt(lmb) per column, and G's rows are divided by the first n_src entries
of lmb (G has exactly n_src rows). -/
def rescale (W : CArr3) (P R_all G : RArr2) : CArr3 × RArr2 × RArr2 × RArr2 :=
  let lmb : ℕ → ℝ := fun c => 1 / meanCol R_all c
  let Wnew : CArr3 :=
    { W with entry := fun f i s => W.entry f i s * ((Real.sqrt (lmb s) : ℝ) : ℂ) }
  let Pnew : RArr2 := { P with entry := fun n c => P.entry n c * lmb c }
  let Rnew : RArr2 := { R_all with entry := fun n c => R_all.entry n c * lmb c }
  let Gnew : RArr2 := { G with entry := fun k b => G.entry k b / lmb k }
  (Wnew, Pnew, Rnew, Gnew)

/-- Embedding of the activation update (lines 140-148), including the
machine-epsilon floor.  R is the view of the first n_src columns of R_all, so
the update writes into those columns and leaves the others untouched. -/
def updateR (n_src : ℕ) (sparse_reg : ℝ) (Um : ℕ → ℕ → ℝ) (P R_all G : RArr2) :
    RArr2 :=
  let U_hat : ℕ → ℕ → ℝ := fun n b =>
    ∑ k ∈ Finset.range n_src, R_all.entry n k * G.entry k b
  let U_hat_I : ℕ → ℕ → ℝ := fun n b => 1 / U_hat n b
  let R_I : ℕ → ℕ → ℝ := fun n k => 1 / R_all.entry n k
  let Rmul : ℕ → ℕ → ℝ := fun n k =>
    R_all.entry n k * Real.sqrt (
      (P.entry n k * R_I n k ^ 2
        + ∑ b ∈ Finset.range G.d2, Um n b * U_hat_I n b ^ 2 * G.entry k b)
      / (R_I n k + (∑ b ∈ Finset.range G.d2, U_hat_I n b * G.entry k b) + sparse_reg))
  { R_all with entry := fun n k =>
      if k < n_src then
        (if Rmul n k < machine_epsilon then machine_epsilon else Rmul n k)
      else R_all.entry n k }

/-- Embedding of the gain update (lines 150-154), using the already updated R,
including the machine-epsilon floor. -/
def updateG (n_src : ℕ) (Um : ℕ → ℕ → ℝ) (R_all G : RArr2) : RArr2 :=
  let U_hat : ℕ → ℕ → ℝ := fun n b =>
    ∑ k ∈ Finset.range n_src, R_all.entry n k * G.entry k b
  let U_hat_I : ℕ → ℕ → ℝ := fun n b => 1 / U_hat n b
  let Gmul : ℕ → ℕ → ℝ := fun k b =>
    G.entry k b * Real.sqrt (
      (∑ n ∈ Finset.range R_all.d1, R_all.entry n k * (Um n b * U_hat_I n b ^ 2))
      / (∑ n ∈ Finset.range R_all.d1, R_all.entry n k * U_hat_I n b))
  { G with entry := fun k b =>
      if Gmul k b < machine_epsilon then machine_epsilon else Gmul k b }

/-- Mutable state of one invocation: the demixing matrices, separated signal,
source powers, full activations and gains. -/
structure IterState where
  W : CArr3
  Y : CArr3
  P : RArr2
  R_all : RArr2
  G : RArr2

/-- One NMF sub-iteration (lines 138-161): activation update, gain update,
then the rescale. -/
def subIterStep (n_freq n_src : ℕ) (sparse_reg : ℝ) (U : RArr2) (st : IterState) :
    IterState :=
  let Um := U_mean_fun n_freq U
  let R1 := updateR n_src sparse_reg Um st.P st.R_all st.G
  let G1 := updateG n_src Um R1 st.G
  let r := rescale st.W st.P R1 G1
  { st with W := r.1, P := r.2.1, R_all := r.2.2.1, G := r.2.2.2 }

/-- Weighted spatial covariance V (lines 163-170):
V[f,s,i,j] = mean over frames of X[n,f,i]·conj(X[n,f,j]) / (1e-15 + 2·R_all[n,s]). -/
def Vcov (X : CArr3) (R_all : RArr2) : ℕ → ℕ → ℕ → ℕ → ℂ :=
  fun f s i j =>
    (∑ n ∈ Finset.range X.d1,
        X.entry n f i / ((((1 / 10 ^ 15 : ℝ) + 2 * R_all.entry n s : ℝ)) : ℂ)
          * (starRingEnd ℂ) (X.entry n f j))
      / ((X.d1 : ℝ) : ℂ)

/-- numpy's ordering of complex numbers: lexicographic, real part first. -/
def cLexLt (a b : ℂ) : Prop := a.re < b.re ∨ (a.re = b.re ∧ a.im < b.im)

/-- numpy maximum of two complex numbers under the lexicographic order. -/
def cmax (a b : ℂ) : ℂ := if cLexLt a b then b else a

/-- np.max over an n × n complex block (axis=(1,2) reduction for one f). -/
def blockMax (n : ℕ) (M : ℕ → ℕ → ℂ) : ℂ :=
  (List.range n).foldl (fun a i => (List.range n).foldl (fun b j => cmax b (M i j)) a)
    (M 0 0)

/-- Activity test of line 177: np.max(V[f,s,:,:]) > 1e-15, under numpy's
lexicographic comparison of complex values. -/
def I_up_cond (n_chan : ℕ) (V : ℕ → ℕ → ℕ → ℕ → ℂ) (s f : ℕ) : Prop :=
  cLexLt (((1 / 10 ^ 15 : ℝ) : ℂ)) (blockMax n_chan (fun i j => V f s i j))

/-- Principal complex square root: np.sqrt applied to a complex array. -/
def csqrt (z : ℂ) : ℂ := z ^ ((1 : ℂ) / 2)

/-- Column s of np.eye(n_chan), the right-hand side of the solve (line 181). -/
def basisCol (n : ℕ) (s : Fin n) : Fin n → ℂ := fun i => if i = s then 1 else 0

/-- Solution w of (Wᴴ·V)·w = e_s at one frequency: np.linalg.solve at lines
179-182, modelled by application of the matrix inverse (numpy raises on an
exactly singular system; that partiality is not modelled). -/
def solveCol (n : ℕ) (Wf Vfs : Matrix (Fin n) (Fin n) ℂ) (s : Fin n) : Fin n → ℂ :=
  (Wf.conjTranspose * Vfs)⁻¹ *ᵥ basisCol n s

/-- Quadratic form Σ_i conj(w i) · Σ_j V i j · w j, the np.sum(P1 * P2) of
lines 184-186 (i.e. wᴴ·V·w). -/
def qfC (n : ℕ) (Vfs : Matrix (Fin n) (Fin n) ℂ) (w : Fin n → ℂ) : ℂ :=
  ∑ i, (starRingEnd ℂ) (w i) * ∑ j, Vfs i j * w j

/-- The new column s of one frequency's demixing matrix (lines 179-186):
solve (Wᴴ·V)·w = e_s, then divide w by sqrt(wᴴ·V·w). -/
def demixCol (n : ℕ) (Wf Vfs : Matrix (Fin n) (Fin n) ℂ) (s : Fin n) : Fin n → ℂ :=
  fun i => solveCol n Wf Vfs s i / csqrt (qfC n Vfs (solveCol n Wf Vfs s))

/-- View an entry function as a square matrix of size n. -/
def toMat (n : ℕ) (A : ℕ → ℕ → ℂ) : Matrix (Fin n) (Fin n) ℂ :=
  Matrix.of fun i j : Fin n => A i.1 j.1

/-- Update of column s of every active frequency's demixing matrix
(lines 176-186): frequencies failing the activity test keep their column. -/
def updateWcol (n_chan : ℕ) (V : ℕ → ℕ → ℕ → ℕ → ℂ) (W : CArr3) (s : ℕ) : CArr3 :=
  { W with entry := fun f i c =>
      if c = s ∧ I_up_cond n_chan V s f then
        if hi : i < n_chan then
          if hs : s < n_chan then
            demixCol n_chan (toMat n_chan (W.entry f))
              (toMat n_chan (fun a b => V f s a b)) ⟨s, hs⟩ ⟨i, hi⟩
          else W.entry f i c
        else W.entry f i c
      else W.entry f i c }

/-- The loop for s in range(n_chan) of line 174, updating columns in turn. -/
def updateWAll (n_chan : ℕ) (V : ℕ → ℕ → ℕ → ℕ → ℂ) (W : CArr3) : CArr3 :=
  (List.range n_chan).foldl (updateWcol n_chan V) W

/-- One epoch of the main loop (lines 125-195).  The callback and the printed
cost are observers that do not modify the algorithm state and are omitted. -/
def epochStep (n_freq n_src n_chan : ℕ) (sparse_reg : ℝ) (n_nmf_sub_iter : ℕ)
    (X : CArr3) (U : RArr2) (st : IterState) : IterState :=
  let st1 := (subIterStep n_freq n_src sparse_reg U)^[n_nmf_sub_iter] st
  let V := Vcov X st1.R_all
  let W1 := updateWAll n_chan V st1.W
  let d := demix n_freq n_src X st1.Y W1 st1.P st1.R_all
  let r := rescale W1 d.2.1 d.2.2 st1.G
  { W := r.1, Y := d.1, P := r.2.1, R_all := r.2.2.1, G := r.2.2.2 }

/-- Model of numpy's process-wide random generator (an external collaborator):
an opaque state, a function giving the entry values of the next uniform draw in
a given state, the state transition performed by drawing an m × k array, and
the state produced by np.random.seed. -/
structure NpRandom where
  rand : ℕ → ℕ → ℕ → ℝ
  next : ℕ → ℕ → ℕ → ℕ
  seedState : ℕ → ℕ

/-- Embedding of lines 76-94: R_all starts as ones; the first n_src columns
(the view R) are drawn uniformly from [0.1, 1.0] and normalised to unit column
mean; G is drawn likewise and rescaled so that the column sums of R·G match
those of U_mean.  When a seed is supplied the ambient generator state is saved,
reseeded for the draws, and restored afterwards.  Returns (R_all, G, ambient
generator state after the block). -/
def initDraws (npr : NpRandom) (n_frames n_freq n_chan n_src : ℕ) (U : RArr2)
    (seed : Option ℕ) (g0 : ℕ) : RArr2 × RArr2 × ℕ :=
  let g1 := match seed with | some s => npr.seedState s | none => g0
  let Rdraw : ℕ → ℕ → ℝ := fun n k => 0.1 + 0.9 * npr.rand g1 n k
  let g2 := npr.next g1 n_frames n_src
  let Rn : ℕ → ℕ → ℝ := fun n k =>
    Rdraw n k / ((∑ m ∈ Finset.range n_frames, Rdraw m k) / (n_frames : ℝ))
  let R_all : RArr2 := ⟨n_frames, n_chan, fun n c => if c < n_src then Rn n c else 1⟩
  let Gdraw : ℕ → ℕ → ℝ := fun k b => 0.1 + 0.9 * npr.rand g2 k b
  let g3 := npr.next g2 n_src U.d2
  let Um := U_mean_fun n_freq U
  let U_hat0 : ℕ → ℕ → ℝ := fun n b => ∑ k ∈ Finset.range n_src, Rn n k * Gdraw k b
  let Gs : ℕ → ℕ → ℝ := fun k b =>
    Gdraw k b * (∑ n ∈ Finset.range n_frames, Um n b)
      / (∑ n ∈ Finset.range n_frames, U_hat0 n b)
  let gFin := match seed with | some _ => g0 | none => g3
  (R_all, ⟨n_src, U.d2, Gs⟩, gFin)

/-- State after lines 58-120: demixing matrices initialised to per-frequency
identity (or a copy of the caller's W0), Y and P allocated as zeros, the NMF
draws done, and the initial demix performed.  Also returns the ambient random
generator state after the seeded-draw block. -/
def initState (npr : NpRandom) (X : CArr3) (U : RArr2) (n_src : ℕ)
    (W0 : Option CArr3) (seed : Option ℕ) (g0 : ℕ) : IterState × ℕ :=
  let n_frames := X.d1
  let n_freq := X.d2
  let n_chan := X.d3
  let W : CArr3 := match W0 with
    | none => ⟨n_freq, n_chan, n_chan, fun _ i j => if i = j then 1 else 0⟩
    | some A => ⟨A.d1, A.d2, A.d3, A.entry⟩
  let Y0 : CArr3 := ⟨n_frames, n_freq, n_chan, fun _ _ _ => 0⟩
  let P0 : RArr2 := ⟨n_frames, n_chan, fun _ _ => 0⟩
  let idr := initDraws npr n_frames n_freq n_chan n_src U seed g0
  let d := demix n_freq n_src X Y0 W P0 idr.1
  (⟨W, d.1, d.2.1, d.2.2, idr.2.1⟩, idr.2.2)

/-- The caller-owned input buffers.  They are threaded through the call and
returned, so that the absence of mutation of any input is a statable frame
condition of the embedding. -/
structure Buffers where
  bX : CArr3
  bU : RArr2
  bW0 : Option CArr3

/-- Return value: the separated signal, optionally paired with (W, G, R_all)
when return_filters is requested. -/
structure BIGOutput where
  Y : CArr3
  filters : Option (CArr3 × RArr2 × RArr2)

/-- Message of the ValueError raised on a frame-count mismatch (line 52). -/
def errMsgFrames : String :=
  "The microphones and blinky signals should have the same number of frames"

/-- Embedding of the entry point blinkiva_gauss (lines 10-204).  pb is the
injected external projection_back collaborator; npr models the numpy global
random generator, whose ambient state g0 is threaded in and returned.  The
result triple is (returned value or raised error, caller buffers after the
call, ambient generator state after the call). -/
def blinkiva_gauss (npr : NpRandom)
    (pb : CArr3 → (ℕ → ℕ → ℂ) → ℕ → ℕ → ℂ)
    (n_srcOpt : Option ℕ) (sparse_reg : ℝ) (n_iter n_nmf_sub_iter : ℕ)
    (proj_back : Bool) (seed : Option ℕ) (return_filters : Bool)
    (buf : Buffers) (g0 : ℕ) : Except String BIGOutput × Buffers × ℕ :=
  let X := buf.bX
  let U := buf.bU
  if U.d1 ≠ X.d1 then (Except.error errMsgFrames, buf, g0)
  else
    let n_src := n_srcOpt.getD X.d3
    let ist := initState npr X U n_src buf.bW0 seed g0
    let stF := (epochStep X.d2 n_src X.d3 sparse_reg n_nmf_sub_iter X U)^[n_iter] ist.1
    let Yfin : CArr3 :=
      if proj_back then
        { stF.Y with entry := fun n f c =>
            stF.Y.entry n f c * (starRingEnd ℂ) (pb stF.Y (fun m f2 => X.entry m f2 0) f c) }
      else stF.Y
    let out : BIGOutput :=
      { Y := Yfin
        filters := if return_filters then some (stF.W, stF.G, stF.R_all) else none }
    (Except.ok out, buf, ist.2)

/-- Diagnostic NMF cost (lines 96-98): Σ log(U_hat) + U / U_hat / 2 with
U_hat = R·G; called with the raw blinky matrix U. -/
def cost_nmf (n_src : ℕ) (U R_all G : RArr2) : ℝ :=
  ∑ n ∈ Finset.range U.d1, ∑ b ∈ Finset.range U.d2,
    (Real.log (∑ k ∈ Finset.range n_src, R_all.entry n k * G.entry k b)
      + U.entry n b / (∑ k ∈ Finset.range n_src, R_all.entry n k * G.entry k b) / 2)

/-- Diagnostic IVA cost (lines 100-104): -2·n_frames·Σ_f log|det W[f]| plus
Σ (n_freq·log R + pwr / R), with pwr the squared norm of Y over frequencies. -/
def cost_iva (Y W : CArr3) (R_all : RArr2) : ℝ :=
  let pwr : ℕ → ℕ → ℝ := fun n c =>
    Real.sqrt (∑ f ∈ Finset.range Y.d2, Complex.abs (Y.entry n f c) ^ 2) ^ 2
  (-2 : ℝ) * (Y.d1 : ℝ) *
      (∑ f ∈ Finset.range W.d1,
        Real.log (Complex.abs (Matrix.det (toMat W.d2 (W.entry f)))))
    + ∑ n ∈ Finset.range R_all.d1, ∑ c ∈ Finset.range R_all.d2,
        ((Y.d2 : ℝ) * Real.log (R_all.entry n c) + pwr n c / R_all.entry n c)

/-- Concrete instantiation of the generator model, used by witnesses. -/
def nprTriv : NpRandom := ⟨fun _ _ _ => 1 / 2, fun g _ _ => g + 1, fun s => s⟩

/-- Concrete instantiation of the projection_back collaborator, for witnesses. -/
def pbTriv : CArr3 → (ℕ → ℕ → ℂ) → ℕ → ℕ → ℂ := fun _ _ _ _ => 1

/-- An all-zero signal with 1 frame, 1 frequency, 2 channels. -/
def Xzero : CArr3 := ⟨1, 1, 2, fun _ _ _ => 0⟩

/-- An all-ones blinky matrix with 1 frame and 1 blinky. -/
def Uone : RArr2 := ⟨1, 1, fun _ _ => 1⟩

/-- A blinky matrix whose frame count 2 disagrees with Xzero's. -/
def Utwo : RArr2 := ⟨2, 1, fun _ _ => 1⟩

/-- C2: when the frame counts of X and U disagree, the call fails with the
validation ValueError of line 52 before any computation, the caller's buffers
(X, U, W0) are returned untouched, and the ambient generator state is
untouched. -/
theorem c2_frame_mismatch_error (npr : NpRandom)
    (pb : CArr3 → (ℕ → ℕ → ℂ) → ℕ → ℕ → ℂ) (n_srcOpt : Option ℕ)
    (sparse_reg : ℝ) (n_iter n_nmf_sub_iter : ℕ) (proj_back : Bool)
    (seed : Option ℕ) (return_filters : Bool) (buf : Buffers) (g0 : ℕ)
    (h : buf.bU.d1 ≠ buf.bX.d1) :
    blinkiva_gauss npr pb n_srcOpt sparse_reg n_iter n_nmf_sub_iter proj_back
        seed return_filters buf g0 = (Except.error errMsgFrames, buf, g0) := by
  simp only [blinkiva_gauss]
  rw [if_pos h]

/-- Witness for C2 at a concrete mismatched input (2 frames of U against 1
frame of X). -/
theorem c2_frame_mismatch_error_witness :
    Utwo.d1 ≠ Xzero.d1 ∧
    blinkiva_gauss nprTriv pbTriv none 0 20 4 true none false ⟨Xzero, Utwo, none⟩ 0
      = (Except.error errMsgFrames, ⟨Xzero, Utwo, none⟩, 0) :=
  ⟨by decide,
    c2_frame_mismatch_error nprTriv pbTriv none 0 20 4 true none false
      ⟨Xzero, Utwo, none⟩ 0 (by decide)⟩

/-- C9: whenever a seed is supplied, the ambient (process-wide) random
generator state after the call equals the state before it: the seeded draw of
lines 83-94 saves and restores the global state around the initialisation. -/
theorem c9_seed_restores_ambient_rng (npr : NpRandom)
    (pb : CArr3 → (ℕ → ℕ → ℂ) → ℕ → ℕ → ℂ) (n_srcOpt : Option ℕ)
    (sparse_reg : ℝ) (n_iter n_nmf_sub_iter : ℕ) (proj_back : Bool)
    (return_filters : Bool) (buf : Buffers) (g0 s : ℕ) :
    (blinkiva_gauss npr pb n_srcOpt sparse_reg n_iter n_nmf_sub_iter proj_back
        (some s) return_filters buf g0).2.2 = g0 := by
  simp only [blinkiva_gauss]
  by_cases hc : buf.bU.d1 ≠ buf.bX.d1
  · rw [if_pos hc]
  · rw [if_neg hc]
    rfl

/-- C10: the caller's W0 buffer is never mutated: the routine takes a copy
(line 62) and works on the copy, so the buffers coming back from the call still
hold the original W0 (and the original X and U). -/
theorem c10_w0_not_mutated (npr : NpRandom)
    (pb : CArr3 → (ℕ → ℕ → ℂ) → ℕ → ℕ → ℂ) (n_srcOpt : Option ℕ)
    (sparse_reg : ℝ) (n_iter n_nmf_sub_iter : ℕ) (proj_back : Bool)
    (seed : Option ℕ) (return_filters : Bool) (buf : Buffers) (g0 : ℕ)
    (A : CArr3) (h : buf.bW0 = some A) :
    (blinkiva_gauss npr pb n_srcOpt sparse_reg n_iter n_nmf_sub_iter proj_back
        seed return_filters buf g0).2.1 = buf ∧
    (blinkiva_gauss npr pb n_srcOpt sparse_reg n_iter n_nmf_sub_iter proj_back
        seed return_filters buf g0).2.1.bW0 = some A := by
  have hb : (blinkiva_gauss npr pb n_srcOpt sparse_reg n_iter n_nmf_sub_iter
      proj_back seed return_filters buf g0).2.1 = buf := by
    simp only [blinkiva_gauss]
    by_cases hc : buf.bU.d1 ≠ buf.bX.d1
    · rw [if_pos hc]
    · rw [if_neg hc]
  refine ⟨hb, ?_⟩
  rw [hb]
  exact h

/-- The dimension fields of the whole iteration state, gathered in one list. -/
def dimsOf (st : IterState) : List ℕ :=
  [st.W.d1, st.W.d2, st.W.d3, st.Y.d1, st.Y.d2, st.Y.d3,
   st.P.d1, st.P.d2, st.R_all.d1, st.R_all.d2, st.G.d1, st.G.d2]

lemma dimsOf_subIterStep (nf ns : ℕ) (sr : ℝ) (U : RArr2) (st : IterState) :
    dimsOf (subIterStep nf ns sr U st) = dimsOf st := rfl

lemma dimsOf_subIter_iterate (nf ns : ℕ) (sr : ℝ) (U : RArr2) (k : ℕ) :
    ∀ st : IterState, dimsOf ((subIterStep nf ns sr U)^[k] st) = dimsOf st := by
  induction k with
  | zero => intro st; rfl
  | succ m ih =>
      intro st
      rw [Function.iterate_succ_apply]
      exact (ih (subIterStep nf ns sr U st)).trans (dimsOf_subIterStep nf ns sr U st)

lemma foldl_updateWcol_dims (nc : ℕ) (V : ℕ → ℕ → ℕ → ℕ → ℂ) (l : List ℕ) :
    ∀ W : CArr3,
      (l.foldl (updateWcol nc V) W).d1 = W.d1 ∧
      (l.foldl (updateWcol nc V) W).d2 = W.d2 ∧
      (l.foldl (updateWcol nc V) W).d3 = W.d3 := by
  induction l with
  | nil => intro W; exact ⟨rfl, rfl, rfl⟩
  | cons s t ih => intro W; exact ih (updateWcol nc V W s)

lemma dimsOf_epochStep (nf ns nc : ℕ) (sr : ℝ) (nsub : ℕ) (X : CArr3) (U : RArr2)
    (st : IterState) :
    dimsOf (epochStep nf ns nc sr nsub X U st) = dimsOf st := by
  have h1 := dimsOf_subIter_iterate nf ns sr U nsub st
  simp only [dimsOf, List.cons.injEq, and_true] at h1
  obtain ⟨e1, e2, e3, e4, e5, e6, e7, e8, e9, e10, e11, e12⟩ := h1
  have h2 := foldl_updateWcol_dims nc
      (Vcov X ((subIterStep nf ns sr U)^[nsub] st).R_all) (List.range nc)
      ((subIterStep nf ns sr U)^[nsub] st).W
  obtain ⟨f1, f2, f3⟩ := h2
  simp only [dimsOf, List.cons.injEq, and_true]
  exact ⟨f1.trans e1, f2.trans e2, f3.trans e3, e4, e5, e6, e7, e8, e9, e10, e11, e12⟩

lemma dimsOf_epoch_iterate (nf ns nc : ℕ) (sr : ℝ) (nsub : ℕ) (X : CArr3)
    (U : RArr2) (k : ℕ) :
    ∀ st : IterState, dimsOf ((epochStep nf ns nc sr nsub X U)^[k] st) = dimsOf st := by
  induction k with
  | zero => intro st; rfl
  | succ m ih =>
      intro st
      rw [Function.iterate_succ_apply]
      exact (ih (epochStep nf ns nc sr nsub X U st)).trans
        (dimsOf_epochStep nf ns nc sr nsub X U st)

/-- C1 (amended): for every shape-valid input the call returns a separated
signal of shape (frames, frequencies, channels) — the third axis is the
channel count, which equals n_src only in the default determined case — and,
with return_filters, W of shape (frequencies, channels, channels), G of shape
(n_src, sensors) and R_all of shape (frames, channels). -/
theorem c1_output_shapes (npr : NpRandom)
    (pb : CArr3 → (ℕ → ℕ → ℂ) → ℕ → ℕ → ℂ) (n_srcOpt : Option ℕ)
    (sparse_reg : ℝ) (n_iter n_nmf_sub_iter : ℕ) (proj_back : Bool)
    (seed : Option ℕ) (return_filters : Bool) (buf : Buffers) (g0 : ℕ)
    (h : buf.bU.d1 = buf.bX.d1)
    (hW0 : ∀ A ∈ buf.bW0, A.d1 = buf.bX.d2 ∧ A.d2 = buf.bX.d3 ∧ A.d3 = buf.bX.d3) :
    ((blinkiva_gauss npr pb n_srcOpt sparse_reg n_iter n_nmf_sub_iter proj_back
        seed return_filters buf g0).1).map
        (fun o => ((o.Y.d1, o.Y.d2, o.Y.d3),
          o.filters.map fun F =>
            ((F.1.d1, F.1.d2, F.1.d3), (F.2.1.d1, F.2.1.d2), (F.2.2.d1, F.2.2.d2))))
      = Except.ok (((buf.bX.d1, buf.bX.d2, buf.bX.d3),
          if return_filters then
            some ((buf.bX.d2, buf.bX.d3, buf.bX.d3),
              (n_srcOpt.getD buf.bX.d3, buf.bU.d2), (buf.bX.d1, buf.bX.d3))
          else none)) := by
  have hne : ¬ buf.bU.d1 ≠ buf.bX.d1 := by simp [h]
  have hdims := dimsOf_epoch_iterate buf.bX.d2 (n_srcOpt.getD buf.bX.d3) buf.bX.d3
      sparse_reg n_nmf_sub_iter buf.bX buf.bU n_iter
      (initState npr buf.bX buf.bU (n_srcOpt.getD buf.bX.d3) buf.bW0 seed g0).1
  simp only [dimsOf, List.cons.injEq, and_true] at hdims
  obtain ⟨w1, w2, w3, y1, y2, y3, -, -, r1, r2, g1, g2⟩ := hdims
  have hW : (initState npr buf.bX buf.bU (n_srcOpt.getD buf.bX.d3) buf.bW0 seed
        g0).1.W.d1 = buf.bX.d2 ∧
      (initState npr buf.bX buf.bU (n_srcOpt.getD buf.bX.d3) buf.bW0 seed
        g0).1.W.d2 = buf.bX.d3 ∧
      (initState npr buf.bX buf.bU (n_srcOpt.getD buf.bX.d3) buf.bW0 seed
        g0).1.W.d3 = buf.bX.d3 := by
    cases hb : buf.bW0 with
    | none => exact ⟨rfl, rfl, rfl⟩
    | some A =>
        obtain ⟨a1, a2, a3⟩ := hW0 A (by simp [hb])
        exact ⟨a1, a2, a3⟩
  obtain ⟨hw1, hw2, hw3⟩ := hW
  cases proj_back <;> cases return_filters <;>
    · simp only [blinkiva_gauss]
      rw [if_neg hne]
      refine congrArg Except.ok ?_
      simp only [Prod.mk.injEq, Option.map_some', Option.map_none', Option.some.injEq,
        if_true, if_false, Bool.false_eq_true, and_true, true_and]
      first
      | exact ⟨⟨y1.trans rfl, y2.trans rfl, y3.trans rfl⟩,
          ⟨w1.trans hw1, w2.trans hw2, w3.trans hw3⟩,
          ⟨g1.trans rfl, g2.trans rfl⟩, r1.trans rfl, r2.trans rfl⟩
      | exact ⟨y1.trans rfl, y2.trans rfl, y3.trans rfl⟩

/-- The C1 shape claim fails on the code when n_src is strictly below the
channel count: with 2 channels and n_src = 1 requested, the returned separated
signal still has 2 channels on its third axis, not n_src = 1. -/
theorem c1_counterexample :
    ((blinkiva_gauss nprTriv pbTriv (some 1) 0 0 4 false none false
        ⟨Xzero, Uone, none⟩ 0).1).map (fun o => o.Y.d3) = Except.ok 2 ∧
    (2 : ℕ) ≠ 1 := by
  constructor
  · rfl
  · decide

/-- Witness for the amended C1 at a concrete valid input with filters
requested. -/
theorem c1_output_shapes_witness :
    Uone.d1 = Xzero.d1 ∧
    ((blinkiva_gauss nprTriv pbTriv (some 1) 0 0 4 false none true
        ⟨Xzero, Uone, none⟩ 0).1).map
        (fun o => ((o.Y.d1, o.Y.d2, o.Y.d3),
          o.filters.map fun F =>
            ((F.1.d1, F.1.d2, F.1.d3), (F.2.1.d1, F.2.1.d2), (F.2.2.d1, F.2.2.d2))))
      = Except.ok (((Buffers.mk Xzero Uone none).bX.d1,
            (Buffers.mk Xzero Uone none).bX.d2, (Buffers.mk Xzero Uone none).bX.d3),
          if true then
            some (((Buffers.mk Xzero Uone none).bX.d2,
                (Buffers.mk Xzero Uone none).bX.d3, (Buffers.mk Xzero Uone none).bX.d3),
              ((some 1).getD (Buffers.mk Xzero Uone none).bX.d3,
                (Buffers.mk Xzero Uone none).bU.d2),
              ((Buffers.mk Xzero Uone none).bX.d1, (Buffers.mk Xzero Uone none).bX.d3))
          else none) :=
  ⟨rfl,
    c1_output_shapes nprTriv pbTriv (some 1) 0 0 4 false none true
      ⟨Xzero, Uone, none⟩ 0 rfl (by simp)⟩

/-- Witness for C10 at a concrete call carrying a W0 buffer. -/
theorem c10_w0_not_mutated_witness :
    (Buffers.mk Xzero Uone (some Xzero)).bW0 = some Xzero ∧
    ((blinkiva_gauss nprTriv pbTriv none 0 1 1 false none false
        ⟨Xzero, Uone, some Xzero⟩ 0).2.1 = Buffers.mk Xzero Uone (some Xzero) ∧
      (blinkiva_gauss nprTriv pbTriv none 0 1 1 false none false
        ⟨Xzero, Uone, some Xzero⟩ 0).2.1.bW0 = some Xzero) :=
  ⟨rfl,
    c10_w0_not_mutated nprTriv pbTriv none 0 1 1 false none false
      ⟨Xzero, Uone, some Xzero⟩ 0 Xzero rfl⟩

/-- An all-ones signal with 1 frame, 1 frequency, 2 channels. -/
def Xones : CArr3 := ⟨1, 1, 2, fun _ _ _ => 1⟩

/-- A per-frequency identity demixing matrix for 2 channels at 1 frequency. -/
def Weye : CArr3 := ⟨1, 2, 2, fun _ i j => if i = j then 1 else 0⟩

/-- A zero-initialised separated-signal buffer. -/
def Yzero : CArr3 := ⟨1, 1, 2, fun _ _ _ => 0⟩

/-- A zero-initialised power buffer with 1 frame and 2 channels. -/
def Pzero : RArr2 := ⟨1, 2, fun _ _ => 0⟩

/-- An all-ones activation buffer with 1 frame and 2 channels. -/
def Rones : RArr2 := ⟨1, 2, fun _ _ => 1⟩

/-- A 1 × 1 activation buffer holding the value 2. -/
def Rtwo : RArr2 := ⟨1, 1, fun _ _ => 2⟩

/-- The C3 positivity claim fails on the code: with an all-zero signal and
n_src = 1 of 2 channels, the untied column of R_all holds the raw power 0,
which is below machine epsilon, at the start of epoch 0 (directly after
initialisation) and still after a full NMF sub-iteration. -/
theorem c3_counterexample :
    (initState nprTriv Xzero Uone 1 none none 0).1.R_all.entry 0 1
        < machine_epsilon ∧
    (subIterStep 1 1 0 Uone
        (initState nprTriv Xzero Uone 1 none none 0).1).R_all.entry 0 1
      < machine_epsilon := by
  have heps : (0 : ℝ) < machine_epsilon := by norm_num [machine_epsilon]
  have h0 : (initState nprTriv Xzero Uone 1 none none 0).1.R_all.entry 0 1 = 0 := by
    simp [initState, demix, Xzero, Uone]
  constructor
  · rw [h0]; exact heps
  · have h1 : (subIterStep 1 1 0 Uone
        (initState nprTriv Xzero Uone 1 none none 0).1).R_all.entry 0 1 = 0 := by
      simp only [subIterStep, rescale, updateR, updateG]
      rw [if_neg (lt_irrefl 1), h0, zero_mul]
    rw [h1]; exact heps

/-- C3 (amended): the machine-epsilon floor holds where the code applies it —
every entry of R (the first n_src columns of R_all) is at least machine
epsilon immediately after the floored activation update, and every entry of G
immediately after the floored gain update.  (The untied columns of R_all, and
the values after the subsequent rescale, are not floored.) -/
theorem c3_floor_bounds :
    (∀ (n_src : ℕ) (sr : ℝ) (Um : ℕ → ℕ → ℝ) (P R_all G : RArr2) (n k : ℕ),
        k < n_src →
        machine_epsilon ≤ (updateR n_src sr Um P R_all G).entry n k) ∧
    (∀ (n_src : ℕ) (Um : ℕ → ℕ → ℝ) (R_all G : RArr2) (k b : ℕ),
        machine_epsilon ≤ (updateG n_src Um R_all G).entry k b) := by
  constructor
  · intro n_src sr Um P R_all G n k hk
    simp only [updateR]
    rw [if_pos hk]
    split_ifs with hlt
    · exact le_refl _
    · exact le_of_not_lt hlt
  · intro n_src Um R_all G k b
    simp only [updateG]
    split_ifs with hlt
    · exact le_refl _
    · exact le_of_not_lt hlt

/-- Witness for the amended C3 at concrete buffers. -/
theorem c3_floor_bounds_witness :
    (0 : ℕ) < 1 ∧
    machine_epsilon ≤ (updateR 1 0 (fun _ _ => 0) Pzero Rones Rones).entry 0 0 ∧
    machine_epsilon ≤ (updateG 1 (fun _ _ => 0) Rones Rones).entry 0 0 :=
  ⟨by decide,
    c3_floor_bounds.1 1 0 (fun _ _ => 0) Pzero Rones Rones 0 0 (by decide),
    c3_floor_bounds.2 1 (fun _ _ => 0) Rones Rones 0 0⟩

/-- The C7 claim that P is written only in its first n_src columns fails on
the code: demix writes every channel column of P.  With n_src = 1 and 2
channels, the column-1 entry of P becomes 1 although the buffer held 0. -/
theorem c7_counterexample :
    (demix 1 1 Xones Yzero Weye Pzero Rones).2.1.entry 0 1 = 1 ∧
    Pzero.entry 0 1 = 0 := by
  constructor
  · norm_num [demix, Xones, Weye, Yzero, Finset.sum_range_succ, Real.sqrt_one]
  · rfl

/-- C7 (amended): demix sets Y[:,f,:] = X[:,f,:]·conj(W[f]) for every
frequency below n_freq, writes EVERY channel column of P as the squared norm
of the new Y over the frequency axis divided by n_freq, and overwrites R_all's
columns at and beyond n_src with P's corresponding columns. -/
theorem c7_demix_spec (n_freq n_src : ℕ) (X Y W : CArr3) (P R_all : RArr2) :
    (∀ n f c, f < n_freq →
      (demix n_freq n_src X Y W P R_all).1.entry n f c
        = ∑ k ∈ Finset.range X.d3,
            X.entry n f k * (starRingEnd ℂ) (W.entry f k c)) ∧
    (∀ n c,
      (demix n_freq n_src X Y W P R_all).2.1.entry n c
        = (∑ f ∈ Finset.range Y.d2,
            Complex.abs ((demix n_freq n_src X Y W P R_all).1.entry n f c) ^ 2)
          / (n_freq : ℝ)) ∧
    (∀ n c,
      (demix n_freq n_src X Y W P R_all).2.2.entry n c
        = if n_src ≤ c then (demix n_freq n_src X Y W P R_all).2.1.entry n c
          else R_all.entry n c) := by
  refine ⟨fun n f c hf => ?_, fun n c => ?_, fun n c => rfl⟩
  · simp only [demix]
    rw [if_pos hf]
  · simp only [demix]
    rw [Real.sq_sqrt (by positivity)]

/-- Witness for the amended C7 at concrete buffers (discharging the
frequency-bound hypothesis of its first part). -/
theorem c7_demix_spec_witness :
    (0 : ℕ) < 1 ∧
    (demix 1 1 Xones Yzero Weye Pzero Rones).1.entry 0 0 0
      = ∑ k ∈ Finset.range Xones.d3,
          Xones.entry 0 0 k * (starRingEnd ℂ) (Weye.entry 0 k 0) :=
  ⟨by decide,
    (c7_demix_spec 1 1 Xones Yzero Weye Pzero Rones).1 0 0 0 (by decide)⟩

/-- The C8 unit-mean claim fails on the code at a reachable state: with the
all-zero signal of two channels and n_src = 1, the untied column 1 of R_all is
identically 0 after the initial demix, so its frame mean is 0; the rescale
inside the first NMF sub-iteration then computes lmb = 1/0 (inf in floats, 0
in the real embedding) and leaves the column's mean at 0 (NaN in floats), not
1. -/
theorem c8_counterexample :
    meanCol (subIterStep 1 1 0 Uone
        (initState nprTriv Xzero Uone 1 none none 0).1).R_all 1 = 0 ∧
    (0 : ℝ) ≠ 1 := by
  have h0 : (initState nprTriv Xzero Uone 1 none none 0).1.R_all.entry 0 1 = 0 := by
    simp [initState, demix, Xzero, Uone]
  have h1 : (subIterStep 1 1 0 Uone
      (initState nprTriv Xzero Uone 1 none none 0).1).R_all.entry 0 1 = 0 := by
    simp only [subIterStep, rescale, updateR, updateG]
    rw [if_neg (lt_irrefl 1), h0, zero_mul]
  constructor
  · show (∑ n ∈ Finset.range 1,
        (subIterStep 1 1 0 Uone
          (initState nprTriv Xzero Uone 1 none none 0).1).R_all.entry n 1)
          / ((1 : ℕ) : ℝ) = 0
    rw [Finset.sum_range_one, h1]
    norm_num
  · norm_num

/-- C8 (amended): after a rescale, every column of R_all whose frame mean was
positive before the rescale (every column in a run where no channel is silent;
columns with zero mean, reachable for silent untied channels, are the
counterexample above) has frame mean exactly 1 afterwards; and the rescale is
exactly: multiply R_all and P by lmb = 1/mean per column, multiply W by
sqrt(lmb) per column, divide G's rows by lmb (its n_src rows use the first
n_src entries of lmb). -/
theorem c8_rescale_unit_mean (W : CArr3) (P R_all G : RArr2) (c : ℕ)
    (hm : 0 < meanCol R_all c) :
    meanCol (rescale W P R_all G).2.2.1 c = 1 ∧
    (∀ f i s, (rescale W P R_all G).1.entry f i s
        = W.entry f i s * ((Real.sqrt (1 / meanCol R_all s) : ℝ) : ℂ)) ∧
    (∀ n j, (rescale W P R_all G).2.1.entry n j
        = P.entry n j * (1 / meanCol R_all j)) ∧
    (∀ k b, (rescale W P R_all G).2.2.2.entry k b
        = G.entry k b / (1 / meanCol R_all k)) := by
  refine ⟨?_, fun f i s => rfl, fun n j => rfl, fun k b => rfl⟩
  have hne : meanCol R_all c ≠ 0 := ne_of_gt hm
  have hd : ((R_all.d1 : ℕ) : ℝ) ≠ 0 := by
    intro h0
    apply hne
    unfold meanCol
    rw [h0, div_zero]
  have hS : (∑ n ∈ Finset.range R_all.d1, R_all.entry n c) ≠ 0 := by
    intro h0
    apply hne
    unfold meanCol
    rw [h0, zero_div]
  simp only [rescale, meanCol]
  rw [← Finset.sum_mul]
  rw [one_div, inv_div, ← mul_div_assoc, mul_div_cancel_left₀ _ hS, div_self hd]

/-- Witness for C8 at a concrete buffer with column mean 2. -/
theorem c8_rescale_unit_mean_witness :
    0 < meanCol Rtwo 0 ∧
    (meanCol (rescale Weye Pzero Rtwo Rones).2.2.1 0 = 1 ∧
      (∀ f i s, (rescale Weye Pzero Rtwo Rones).1.entry f i s
          = Weye.entry f i s * ((Real.sqrt (1 / meanCol Rtwo s) : ℝ) : ℂ)) ∧
      (∀ n j, (rescale Weye Pzero Rtwo Rones).2.1.entry n j
          = Pzero.entry n j * (1 / meanCol Rtwo j)) ∧
      (∀ k b, (rescale Weye Pzero Rtwo Rones).2.2.2.entry k b
          = Rones.entry k b / (1 / meanCol Rtwo k))) :=
  have hm : 0 < meanCol Rtwo 0 := by
    norm_num [meanCol, Rtwo, Finset.sum_range_succ]
  ⟨hm, c8_rescale_unit_mean Weye Pzero Rtwo Rones 0 hm⟩

lemma qfC_smul (n : ℕ) (V : Matrix (Fin n) (Fin n) ℂ) (a : ℂ) (w : Fin n → ℂ) :
    qfC n V (fun i => a * w i) = (starRingEnd ℂ) a * (a * qfC n V w) := by
  simp only [qfC, map_mul]
  rw [Finset.mul_sum, Finset.mul_sum]
  refine Finset.sum_congr rfl fun i _ => ?_
  have h : (∑ j, V i j * (a * w j)) = a * ∑ j, V i j * w j := by
    rw [Finset.mul_sum]
    exact Finset.sum_congr rfl fun j _ => by ring
  rw [h]
  ring

lemma qfC_conj (n : ℕ) (V : Matrix (Fin n) (Fin n) ℂ) (hV : V.IsHermitian)
    (w : Fin n → ℂ) : (starRingEnd ℂ) (qfC n V w) = qfC n V w := by
  have hrw : ∀ i j, (starRingEnd ℂ) (V i j) = V j i := fun i j => hV.apply j i
  simp only [qfC, map_sum, map_mul, Complex.conj_conj]
  have step : ∀ i, w i * ∑ j, (starRingEnd ℂ) (V i j) * (starRingEnd ℂ) (w j)
      = ∑ j, (starRingEnd ℂ) (w j) * (V j i * w i) := by
    intro i
    rw [Finset.mul_sum]
    exact Finset.sum_congr rfl fun j _ => by rw [hrw]; ring
  calc (∑ i, w i * ∑ j, (starRingEnd ℂ) (V i j) * (starRingEnd ℂ) (w j))
      = ∑ i, ∑ j, (starRingEnd ℂ) (w j) * (V j i * w i) :=
        Finset.sum_congr rfl fun i _ => step i
    _ = ∑ j, ∑ i, (starRingEnd ℂ) (w j) * (V j i * w i) := Finset.sum_comm
    _ = ∑ j, (starRingEnd ℂ) (w j) * ∑ i, V j i * w i := by
        refine Finset.sum_congr rfl fun j _ => ?_
        rw [Finset.mul_sum]

lemma qfC_eq_re (n : ℕ) (V : Matrix (Fin n) (Fin n) ℂ) (hV : V.IsHermitian)
    (w : Fin n → ℂ) : qfC n V w = (((qfC n V w).re : ℝ) : ℂ) := by
  have him : (qfC n V w).im = 0 := Complex.conj_eq_iff_im.mp (qfC_conj n V hV w)
  refine (Complex.ext ?_ ?_).symm
  · exact Complex.ofReal_re _
  · rw [Complex.ofReal_im]
    exact him.symm

lemma csqrt_ofReal (r : ℝ) (hr : 0 ≤ r) :
    csqrt ((r : ℂ)) = ((Real.sqrt r : ℝ) : ℂ) := by
  rw [csqrt, show ((1 : ℂ) / 2) = (((1 / 2 : ℝ)) : ℂ) by norm_num]
  rw [← Complex.ofReal_cpow hr]
  rw [← Real.sqrt_eq_rpow]

/-- The covariance built at lines 166-170 is Hermitian in exact arithmetic:
its (i,j) entry is the conjugate of its (j,i) entry, at every frequency and
source.  (This backs the Hermitian hypothesis of the normalisation result.) -/
lemma Vcov_hermitian (X : CArr3) (R_all : RArr2) (f s i j : ℕ) :
    (starRingEnd ℂ) (Vcov X R_all f s j i) = Vcov X R_all f s i j := by
  simp only [Vcov, map_div₀, map_sum, map_mul, Complex.conj_conj,
    Complex.conj_ofReal]
  refine congrArg (fun z => z / _) ?_
  refine Finset.sum_congr rfl fun n _ => ?_
  ring

/-- C6: after the solve-and-normalise update of a column, the quadratic form of
the new column against V is exactly 1, provided V is Hermitian (as the
covariance built at lines 166-170 is in exact arithmetic) and the quadratic
form of the solver's solution has positive real part (the non-degenerate case
selected by the activity test). -/
theorem c6_unit_quadratic_form (n : ℕ) (Wf Vfs : Matrix (Fin n) (Fin n) ℂ)
    (s : Fin n) (hV : Vfs.IsHermitian)
    (hq : 0 < (qfC n Vfs (solveCol n Wf Vfs s)).re) :
    qfC n Vfs (demixCol n Wf Vfs s) = 1 := by
  have hreal := qfC_eq_re n Vfs hV (solveCol n Wf Vfs s)
  set w := solveCol n Wf Vfs s with hw
  set r := (qfC n Vfs w).re with hrdef
  have hcs : csqrt (qfC n Vfs w) = ((Real.sqrt r : ℝ) : ℂ) := by
    rw [hreal]
    exact csqrt_ofReal r hq.le
  have hdc : demixCol n Wf Vfs s = fun i => (((Real.sqrt r : ℝ) : ℂ))⁻¹ * w i := by
    funext i
    simp only [demixCol]
    rw [← hw, hcs, div_eq_inv_mul]
  rw [hdc, qfC_smul n Vfs _ w, hreal]
  rw [← Complex.ofReal_inv, Complex.conj_ofReal]
  rw [← Complex.ofReal_mul, ← Complex.ofReal_mul]
  have hone : (Real.sqrt r)⁻¹ * ((Real.sqrt r)⁻¹ * r) = 1 := by
    rw [← mul_assoc, ← mul_inv, Real.mul_self_sqrt hq.le]
    exact inv_mul_cancel₀ (ne_of_gt hq)
  rw [hone, Complex.ofReal_one]

/-- Witness for C6 at the concrete 1 × 1 instance Wf = V = identity. -/
theorem c6_unit_quadratic_form_witness :
    (1 : Matrix (Fin 1) (Fin 1) ℂ).IsHermitian ∧
    0 < (qfC 1 (1 : Matrix (Fin 1) (Fin 1) ℂ) (solveCol 1 1 1 0)).re ∧
    qfC 1 (1 : Matrix (Fin 1) (Fin 1) ℂ) (demixCol 1 1 1 0) = 1 := by
  have h1 : (1 : Matrix (Fin 1) (Fin 1) ℂ).IsHermitian := Matrix.isHermitian_one
  have hs : solveCol 1 (1 : Matrix (Fin 1) (Fin 1) ℂ) 1 0 = basisCol 1 0 := by
    simp [solveCol, Matrix.conjTranspose_one, inv_one, Matrix.one_mulVec]
  have h2 : 0 < (qfC 1 (1 : Matrix (Fin 1) (Fin 1) ℂ) (solveCol 1 1 1 0)).re := by
    rw [hs]
    simp [qfC, basisCol, Fin.sum_univ_one, Matrix.one_apply]
  exact ⟨h1, h2, c6_unit_quadratic_form 1 1 1 0 h1 h2⟩

/-- A 1 × 1 demixing matrix holding the imaginary unit. -/
def WmatI : Matrix (Fin 1) (Fin 1) ℂ := Matrix.of fun _ _ => Complex.I

/-- A 1 × 1 covariance holding 1. -/
def Vmat1 : Matrix (Fin 1) (Fin 1) ℂ := Matrix.of fun _ _ => 1

/-- csqrt of 1 is 1. -/
lemma csqrt_one : csqrt 1 = 1 := by
  rw [csqrt]
  exact Complex.one_cpow _

/-- The C5 claim that the assigned column is conj(w)/sqrt(wᴴVw) fails on the
code: the code assigns w itself, divided by sqrt(wᴴVw) (the conjugate enters
only the normalising inner product).  At W = [[i]], V = [[1]], s = 0 the
solver gives w = i, the code assigns i, while the claim's formula gives -i. -/
theorem c5_counterexample :
    demixCol 1 WmatI Vmat1 0 0 = Complex.I ∧
    (starRingEnd ℂ) (solveCol 1 WmatI Vmat1 0 0)
        / csqrt (qfC 1 Vmat1 (solveCol 1 WmatI Vmat1 0)) = -Complex.I ∧
    Complex.I ≠ -Complex.I := by
  have hA : WmatI.conjTranspose * Vmat1 = Matrix.of fun _ _ => -Complex.I := by
    ext i j
    simp [Matrix.mul_apply, Matrix.conjTranspose_apply, WmatI, Vmat1,
      Complex.conj_I, Fin.sum_univ_one]
  have hInv : (Matrix.of fun _ _ => -Complex.I : Matrix (Fin 1) (Fin 1) ℂ)⁻¹
      = Matrix.of fun _ _ => Complex.I := by
    apply Matrix.inv_eq_right_inv
    ext i j
    simp [Matrix.mul_apply, Matrix.one_apply, Fin.sum_univ_one, Complex.I_mul_I,
      Subsingleton.elim i j]
  have hsol : solveCol 1 WmatI Vmat1 0 = fun _ => Complex.I := by
    funext i
    rw [solveCol, hA, hInv]
    simp [Matrix.mulVec, Matrix.dotProduct, basisCol, Fin.sum_univ_one,
      Subsingleton.elim i 0]
  have hq1 : qfC 1 Vmat1 (solveCol 1 WmatI Vmat1 0) = 1 := by
    rw [hsol]
    simp [qfC, Vmat1, Fin.sum_univ_one, Complex.conj_I, Complex.I_mul_I]
  refine ⟨?_, ?_, ?_⟩
  · simp only [demixCol]
    rw [hq1, csqrt_one, hsol]
    simp
  · rw [hq1, csqrt_one, hsol]
    simp [Complex.conj_I]
  · intro hcon
    have h2 := congrArg Complex.im hcon
    simp only [Complex.I_im, Complex.neg_im] at h2
    norm_num at h2

/-- C5 (amended): at every active frequency the update solves
(Wᴴ[f]·V[f,s])·w = e_s for w and assigns W[f,:,s] = w / sqrt(wᴴ·V[f,s]·w) —
the solution itself, not its conjugate, is normalised and assigned. -/
theorem c5_solve_then_normalize (n : ℕ) (Wf Vfs : Matrix (Fin n) (Fin n) ℂ)
    (s : Fin n) (h : IsUnit (Wf.conjTranspose * Vfs).det) :
    (Wf.conjTranspose * Vfs) *ᵥ solveCol n Wf Vfs s = basisCol n s ∧
    demixCol n Wf Vfs s
      = fun i => solveCol n Wf Vfs s i
          / csqrt (qfC n Vfs (solveCol n Wf Vfs s)) := by
  constructor
  · rw [solveCol, Matrix.mulVec_mulVec, Matrix.mul_nonsing_inv _ h,
      Matrix.one_mulVec]
  · rfl

/-- Witness for the amended C5 at the concrete 1 × 1 identity instance. -/
theorem c5_solve_then_normalize_witness :
    IsUnit ((1 : Matrix (Fin 1) (Fin 1) ℂ).conjTranspose * 1).det ∧
    (((1 : Matrix (Fin 1) (Fin 1) ℂ).conjTranspose * 1) *ᵥ solveCol 1 1 1 0
        = basisCol 1 0 ∧
      demixCol 1 (1 : Matrix (Fin 1) (Fin 1) ℂ) 1 0
        = fun i => solveCol 1 1 1 0 i / csqrt (qfC 1 1 (solveCol 1 1 1 0))) := by
  have h : IsUnit ((1 : Matrix (Fin 1) (Fin 1) ℂ).conjTranspose * 1).det := by
    simp [Matrix.conjTranspose_one]
  exact ⟨h, c5_solve_then_normalize 1 1 1 0 h⟩

end BlinkIVA
